import Mathlib

/-!
Verification of the transcript acquisition and indexing pipeline of the
`yt-cli` tool.  The Rust sources are embedded shallowly:

* `src/storage.rs` — `sanitize_filename` (strings as `List Char`, with the
  Rust byte slice `&s[..max_length]` modelled as `byteTake`, which returns
  `none` exactly when the byte index is not a UTF-8 character boundary, the
  situation in which the Rust code aborts), `get_platform_from_url`,
  `list_transcripts` / `find_transcripts_recursive` over a modelled
  directory tree;
* `src/transcriber.rs` — `format_timestamp`, `format_transcript`,
  `format_transcript_markdown`;
* `src/database.rs` — the SQLite state (`transcripts` table plus the
  `transcripts_fts` full-text shadow) as explicit lists of rows, with
  `add_transcript` (INSERT OR REPLACE plus `last_insert_rowid`),
  `search_transcripts` (phrase match of the quoted query against the four
  indexed columns, joined on `transcripts_fts.rowid = t.id`, the `snippet`
  SQL function applied to column index 2) and `delete_transcript`;
* `src/commands/reindex.rs` — `reindex_single` / `reindex_recursive` over
  the same modelled directory tree.

SQLite's fts5 engine is an external dependency of the program; its
tokenizer, phrase matching and `snippet` function are modelled at token
granularity (see the doc comments on `tokenizeChars`, `containsL` and
`ftsSnippet`).  The bm25 rank ordering of search results is abstracted:
results are produced in table scan order, and no theorem below depends on
the relative order of two matching rows.
-/

namespace YtCli

/-! ## Filename sanitisation (`src/storage.rs`, `sanitize_filename`) -/

/-- The character class of the Rust regex `[<>:"/\\|?*]`: characters that
are illegal in filesystem names and get replaced by an underscore. -/
def isIllegalChar (c : Char) : Bool :=
  c = '<' || c = '>' || c = ':' || c = '"' || c = '/' || c = '\\' ||
  c = '|' || c = '?' || c = '*'

/-- The `\s` class of the Rust regex crate in its default Unicode mode:
the Unicode white-space code points. -/
def isWhitespaceChar (c : Char) : Bool :=
  let n := c.toNat
  decide (9 ≤ n ∧ n ≤ 13) || n = 32 || n = 0x85 || n = 0xa0 || n = 0x1680 ||
  decide (0x2000 ≤ n ∧ n ≤ 0x200a) || n = 0x2028 || n = 0x2029 ||
  n = 0x202f || n = 0x205f || n = 0x3000

/-- A character matched by the regex `[\s_]`: white space or underscore. -/
def isWsOrUnd (c : Char) : Bool :=
  isWhitespaceChar c || c = '_'

/-- A character trimmed from both ends: the closure
`|c| c == '_' || c == ' '` passed to `trim_matches`. -/
def isTrimChar (c : Char) : Bool :=
  c = '_' || c = ' '

/-- `replace_all` of the regex `[\s_]+` by `"_"`: every maximal run of
white space and underscores becomes a single underscore. -/
def collapseRuns : List Char → List Char
  | [] => []
  | c :: cs =>
    if isWsOrUnd c then
      match cs with
      | [] => ['_']
      | d :: ds => if isWsOrUnd d then collapseRuns (d :: ds) else '_' :: collapseRuns (d :: ds)
    else c :: collapseRuns cs

/-- `trim_matches(|c| c == '_' || c == ' ')`: strip such characters from
both ends of the string. -/
def trimMatches (l : List Char) : List Char :=
  ((l.dropWhile isTrimChar).reverse.dropWhile isTrimChar).reverse

/-- `trim_end_matches('_')`: strip trailing underscores. -/
def trimEndUnd (l : List Char) : List Char :=
  (l.reverse.dropWhile (fun c => c = '_')).reverse

/-- UTF-8 byte length of the string, Rust's `str::len`. -/
def byteLen (l : List Char) : Nat :=
  (l.map Char.utf8Size).sum

/-- The Rust byte slice `&s[..n]`.  Returns the characters making up the
first `n` bytes when `n` falls on a character boundary, and `none` when it
does not — the case in which the Rust program aborts with a panic.  The
caller only slices when `n < byteLen l`, so running out of characters
cannot happen there. -/
def byteTake : List Char → Nat → Option (List Char)
  | _, 0 => some []
  | [], _ + 1 => none
  | c :: cs, n + 1 =>
    if c.utf8Size ≤ n + 1 then (byteTake cs (n + 1 - c.utf8Size)).map (fun t => c :: t)
    else none

/-- The value `sanitized` of `sanitize_filename` after line 21 of
`src/storage.rs`: illegal characters replaced, runs collapsed, both ends
trimmed. -/
def cleanedStem (name : List Char) : List Char :=
  trimMatches (collapseRuns (name.map fun c => if isIllegalChar c then '_' else c))

/-- `sanitize_filename(name, max_length)` of `src/storage.rs`.  `none`
models the panic of the byte slice `&sanitized[..max_length]` on a
non-boundary index; otherwise the result string is returned, with the
empty result replaced by `"untitled"`. -/
def sanitize_filename (name : List Char) (max_length : Nat) : Option (List Char) :=
  let sanitized := cleanedStem name
  let result? : Option (List Char) :=
    if byteLen sanitized > max_length then (byteTake sanitized max_length).map trimEndUnd
    else some sanitized
  result?.map fun result => if result.isEmpty then "untitled".toList else result

/-! ## Platform classification (`src/storage.rs`, `get_platform_from_url`) -/

/-- `a` starts with the list `pre` (Rust `str::starts_with`, here on any
element type with decidable equality). -/
def startsWithL [DecidableEq α] : List α → List α → Bool
  | _, [] => true
  | [], _ :: _ => false
  | a :: as, b :: bs => a = b && startsWithL as bs

/-- `hay` contains `pat` as a contiguous subsequence (Rust
`str::contains`; also fts5 phrase containment over token lists). -/
def containsL [DecidableEq α] (hay pat : List α) : Bool :=
  startsWithL hay pat ||
    match hay with
    | [] => false
    | _ :: t => containsL t pat

/-- The static `PLATFORM_MAP` table of `src/storage.rs`, in source order. -/
def PLATFORM_MAP : List (List Char × List Char) :=
  [("youtube.com".toList, "youtube".toList),
   ("youtu.be".toList, "youtube".toList),
   ("vimeo.com".toList, "vimeo".toList),
   ("twitter.com".toList, "twitter".toList),
   ("x.com".toList, "twitter".toList),
   ("twitch.tv".toList, "twitch".toList),
   ("dailymotion.com".toList, "dailymotion".toList),
   ("facebook.com".toList, "facebook".toList),
   ("fb.watch".toList, "facebook".toList),
   ("instagram.com".toList, "instagram".toList),
   ("tiktok.com".toList, "tiktok".toList)]

/-- The loop over `PLATFORM_MAP`: first entry whose pattern the domain
contains wins. -/
def findPlat : List (List Char × List Char) → List Char → Option (List Char)
  | [], _ => none
  | (pat, plat) :: rest, d => if containsL d pat then some plat else findPlat rest d

/-- The characters of the second piece of `split("://")` when a `"://"`
occurs, scanning left to right: everything after the first `"://"` up to
the next `"://"`. -/
def takeUntilScheme : List Char → List Char
  | ':' :: '/' :: '/' :: _ => []
  | c :: cs => c :: takeUntilScheme cs
  | [] => []

/-- `url.split("://").nth(1)`: `none` when no `"://"` occurs. -/
def afterSchemeSeg : List Char → Option (List Char)
  | ':' :: '/' :: '/' :: rest => some (takeUntilScheme rest)
  | _ :: cs => afterSchemeSeg cs
  | [] => none

/-- Rust `str::split(sep)` for a one-character separator: the list of
pieces, always non-empty. -/
def splitChar (sep : Char) : List Char → List (List Char)
  | [] => [[]]
  | c :: cs =>
    if c = sep then [] :: splitChar sep cs
    else
      match splitChar sep cs with
      | [] => [[c]]
      | p :: ps => (c :: p) :: ps

/-- `trim_start_matches("www.")` on the already lowercased domain:
repeatedly strip a leading `www.`. -/
def stripWWW : List Char → List Char
  | 'w' :: 'w' :: 'w' :: '.' :: rest => stripWWW rest
  | l => l

/-- The `domain` local of `get_platform_from_url` (lines 56–63 of
`src/storage.rs`): lowercase the URL, take the piece after the first
`"://"` (or the whole URL when there is none), cut at the first `/`, and
strip leading `www.`.  `Char.toLower` is the ASCII case fold; Rust's
`to_lowercase` extends it to non-ASCII letters, which none of the
statements below exercise. -/
def domainOf (url : List Char) : List Char :=
  let url_lower := url.map Char.toLower
  let seg := (afterSchemeSeg url_lower).getD url_lower
  let host := ((splitChar '/' seg).head?).getD []
  stripWWW host

/-- `get_platform_from_url` of `src/storage.rs`: first `PLATFORM_MAP`
entry contained in the domain, else the part of the domain before the
first `.`, with `"unknown"` as the `unwrap_or` default. -/
def get_platform_from_url (url : List Char) : List Char :=
  let domain := domainOf url
  match findPlat PLATFORM_MAP domain with
  | some p => p
  | none => ((splitChar '.' domain).head?).getD ("unknown".toList)

/-! ## Transcript data and formatters (`src/transcriber.rs`) -/

/-- An utterance of the speaker diarisation (`Utterance` struct). -/
structure Utterance where
  speaker : String
  text : String
  start : Int
  «end» : Int
  confidence : Option Float

/-- Word-level data (`Word` struct). -/
structure Word where
  text : String
  start : Int
  «end» : Int
  confidence : Option Float
  speaker : Option String

/-- The full transcript (`TranscriptData` struct). -/
structure TranscriptData where
  id : String
  text : String
  utterances : List Utterance
  words : List Word
  confidence : Option Float
  audio_duration : Option Int

/-- Rust `format!("{:02}", n)` on an `i64`: left pad with zeros to width
two, the sign counting towards the width. -/
def pad2 (n : Int) : String :=
  if 0 ≤ n ∧ n < 10 then "0" ++ toString n else toString n

/-- `format_timestamp` of `src/transcriber.rs`: milliseconds to `MM:SS`,
or `HH:MM:SS` from one hour on.  `Int.tdiv` / `Int.tmod` truncate towards
zero exactly as Rust's `i64` division does. -/
def format_timestamp (ms : Int) : String :=
  let seconds := Int.tdiv ms 1000
  let minutes := Int.tdiv seconds 60
  let hours := Int.tdiv minutes 60
  if hours > 0 then
    pad2 hours ++ ":" ++ pad2 (Int.tmod minutes 60) ++ ":" ++ pad2 (Int.tmod seconds 60)
  else
    pad2 minutes ++ ":" ++ pad2 (Int.tmod seconds 60)

/-- The loop of `format_transcript`: the state is the open batch
(`current_speaker`, `current_texts`), `none` before the first utterance;
emitted paragraphs are collected in order. -/
def formatPlainLoop : Option (String × List String) → List Utterance → List String
  | none, [] => []
  | some (sp, texts), [] =>
    ["Speaker " ++ sp ++ ": " ++ String.intercalate " " texts]
  | none, u :: us => formatPlainLoop (some (u.speaker, [u.text])) us
  | some (sp, texts), u :: us =>
    if u.speaker = sp then formatPlainLoop (some (sp, texts ++ [u.text])) us
    else
      ("Speaker " ++ sp ++ ": " ++ String.intercalate " " texts)
        :: formatPlainLoop (some (u.speaker, [u.text])) us

/-- `format_transcript` of `src/transcriber.rs`: plain text with speaker
batching, paragraphs joined by a blank line; the raw flat text when there
are no utterances. -/
def format_transcript (data : TranscriptData) : String :=
  if data.utterances.isEmpty then data.text
  else String.intercalate "\n\n" (formatPlainLoop none data.utterances)

/-- The loop of `format_transcript_markdown`: as `formatPlainLoop`, with
the start offset of the first utterance of the open batch
(`paragraph_start`) carried along. -/
def formatMdLoop : Option (String × List String × Int) → List Utterance → List String
  | none, [] => []
  | some (sp, texts, st), [] =>
    ["**Speaker " ++ sp ++ "** [" ++ format_timestamp st ++ "]: " ++
      String.intercalate " " texts]
  | none, u :: us => formatMdLoop (some (u.speaker, [u.text], u.start)) us
  | some (sp, texts, st), u :: us =>
    if u.speaker = sp then formatMdLoop (some (sp, texts ++ [u.text], st)) us
    else
      ("**Speaker " ++ sp ++ "** [" ++ format_timestamp st ++ "]: " ++
        String.intercalate " " texts)
        :: formatMdLoop (some (u.speaker, [u.text], u.start)) us

/-- `format_transcript_markdown` of `src/transcriber.rs`: the
`## Transcript` heading, then the batched paragraphs with bold speaker
labels and timestamps, or the raw flat text when there are no
utterances. -/
def format_transcript_markdown (data : TranscriptData) : String :=
  "## Transcript\n\n" ++
    (if data.utterances.isEmpty then data.text
     else String.intercalate "\n\n" (formatMdLoop none data.utterances))

/-- Specification-side regrouping: split the utterance list into maximal
runs of one speaker (the first element of each run opens it, the run
extends while the speaker token stays equal).  The `Nat` argument is
fuel — the list's length at the top call — making the recursion
structural. -/
def chunkSpeakerF : Nat → List Utterance → List (List Utterance)
  | _, [] => []
  | 0, _ :: _ => []
  | fuel + 1, u :: us =>
    (u :: us.takeWhile (fun v => v.speaker = u.speaker))
      :: chunkSpeakerF fuel (us.dropWhile (fun v => v.speaker = u.speaker))

/-- The maximal same-speaker runs of an utterance list. -/
def chunkSpeaker (us : List Utterance) : List (List Utterance) :=
  chunkSpeakerF us.length us

/-- `chunkSpeakerF` ignores the exact fuel as long as it covers the
list's length. -/
theorem chunkSpeakerF_irrel :
    ∀ (f1 f2 : Nat) (us : List Utterance), us.length ≤ f1 → us.length ≤ f2 →
      chunkSpeakerF f1 us = chunkSpeakerF f2 us := by
  intro f1
  induction f1 with
  | zero =>
    intro f2 us h1 _
    have : us = [] := List.length_eq_zero.mp (Nat.le_zero.mp h1)
    subst this
    cases f2 <;> rfl
  | succ f1 ih =>
    intro f2 us h1 h2
    cases us with
    | nil => cases f2 <;> rfl
    | cons u us =>
      cases f2 with
      | zero => simp at h2
      | succ f2 =>
        simp only [chunkSpeakerF]
        simp only [List.length_cons] at h1 h2
        have hlen := List.Sublist.length_le
          (List.dropWhile_sublist (l := us) (fun v => v.speaker = u.speaker))
        rw [ih f2 (us.dropWhile (fun v => v.speaker = u.speaker)) (by omega) (by omega)]

/-- The plain paragraph rendered for one speaker run. -/
def plainParagraph : List Utterance → String
  | [] => ""
  | u :: rest =>
    "Speaker " ++ u.speaker ++ ": " ++
      String.intercalate " " ((u :: rest).map (fun v => v.text))

/-- The markdown paragraph rendered for one speaker run, timestamped with
the start offset of the run's first utterance. -/
def mdParagraph : List Utterance → String
  | [] => ""
  | u :: rest =>
    "**Speaker " ++ u.speaker ++ "** [" ++ format_timestamp u.start ++ "]: " ++
      String.intercalate " " ((u :: rest).map (fun v => v.text))

/-! ## The search index (`src/database.rs`)

The SQLite database is modelled explicitly: `transcripts` as a list of
rows, `transcripts_fts` as a list of shadow rows keyed by `rowid`, and the
AUTOINCREMENT high-water mark of the `id` column as `seq` (SQLite never
reuses an id of an AUTOINCREMENT column, even after a REPLACE or DELETE).
-/

/-- The fts5 `unicode61` tokenizer, at ASCII granularity: case-folded
maximal runs of alphanumeric characters. -/
def isTokenChar (c : Char) : Bool :=
  c.isAlphanum

/-- Cut a character list into tokens: maximal alphanumeric runs.  The
`Nat` argument is fuel — always the list's length at the top call — that
makes the recursion structural (every step consumes at least one
character, so the zero-fuel branch is unreachable). -/
def tokenizeCharsF : Nat → List Char → List (List Char)
  | _, [] => []
  | 0, _ :: _ => []
  | fuel + 1, c :: cs =>
    if isTokenChar c then
      (c :: cs.takeWhile isTokenChar) :: tokenizeCharsF fuel (cs.dropWhile isTokenChar)
    else tokenizeCharsF fuel cs

/-- Cut a character list into tokens: maximal alphanumeric runs. -/
def tokenizeChars (l : List Char) : List (List Char) :=
  tokenizeCharsF l.length l

/-- Tokenize a column value or a query string: lowercase, then split into
alphanumeric tokens. -/
def tokenize (s : String) : List (List Char) :=
  tokenizeChars (s.toList.map Char.toLower)

/-- A row of the `transcripts_fts` virtual table: the `rowid` plus the
four indexed text columns (in column order: 0 `title`, 1 `channel`,
2 `description`, 3 `transcript_text`). -/
structure FtsRow where
  rowid : Nat
  title : String
  channel : String
  description : String
  transcript_text : String
deriving DecidableEq

/-- A row of the `transcripts` table (the `transcribed_at` timestamp
column is not modelled; no claim touches it). -/
structure DBRow where
  id : Nat
  video_id : String
  url : String
  title : String
  channel : String
  channel_handle : Option String
  channel_id : Option String
  platform : String
  duration : Option Int
  upload_date : Option String
  description : Option String
  thumbnail : Option String
  view_count : Option Int
  like_count : Option Int
  path : String
  speaker_count : Int
  word_count : Int
  confidence : Option Float

/-- The database state. -/
structure DB where
  seq : Nat
  transcripts : List DBRow
  fts : List FtsRow

/-- A freshly opened empty database. -/
def emptyDB : DB :=
  { seq := 0, transcripts := [], fts := [] }

/-- The `TranscriptMetadata` argument struct of `add_transcript`. -/
structure TranscriptMetadata where
  video_id : String
  url : String
  title : String
  channel : String
  channel_handle : Option String
  channel_id : Option String
  platform : String
  duration : Option Int
  upload_date : Option String
  description : Option String
  thumbnail : Option String
  view_count : Option Int
  like_count : Option Int
  path : String
  speaker_count : Int
  word_count : Int
  confidence : Option Float
  transcript_text : String

/-- The `transcripts` row inserted for `m` with id `i`. -/
def rowOfMeta (m : TranscriptMetadata) (i : Nat) : DBRow :=
  { id := i, video_id := m.video_id, url := m.url, title := m.title,
    channel := m.channel, channel_handle := m.channel_handle,
    channel_id := m.channel_id, platform := m.platform,
    duration := m.duration, upload_date := m.upload_date,
    description := m.description, thumbnail := m.thumbnail,
    view_count := m.view_count, like_count := m.like_count,
    path := m.path, speaker_count := m.speaker_count,
    word_count := m.word_count, confidence := m.confidence }

/-- The `transcripts_fts` shadow row inserted for `m` at rowid `i`:
title, channel, `description.unwrap_or("")` and the transcript text. -/
def shadowOfMeta (m : TranscriptMetadata) (i : Nat) : FtsRow :=
  { rowid := i, title := m.title, channel := m.channel,
    description := m.description.getD "", transcript_text := m.transcript_text }

/-- `add_transcript` of `src/database.rs`.  `INSERT OR REPLACE INTO
transcripts` deletes any row with the same (UNIQUE) `video_id` and inserts
a fresh row whose AUTOINCREMENT id is `seq + 1`; `last_insert_rowid`
yields that id, and `INSERT OR REPLACE INTO transcripts_fts(rowid, …)`
replaces only a shadow row at that same fresh rowid.  Returns the new id
and the new state. -/
def add_transcript (db : DB) (meta : TranscriptMetadata) : Nat × DB :=
  let newId := db.seq + 1
  (newId,
   { seq := newId,
     transcripts :=
       db.transcripts.filter (fun r => ¬ r.video_id = meta.video_id)
         ++ [rowOfMeta meta newId],
     fts :=
       db.fts.filter (fun f => ¬ f.rowid = newId) ++ [shadowOfMeta meta newId] })

/-- fts5 match of the quoted query (a single phrase, since
`search_transcripts` wraps the query in double quotes): the phrase's token
list occurs contiguously in one of the four indexed columns.  An empty
phrase matches nothing. -/
def ftsMatch (phrase : List (List Char)) (f : FtsRow) : Bool :=
  !phrase.isEmpty &&
    (containsL (tokenize f.title) phrase || containsL (tokenize f.channel) phrase ||
     containsL (tokenize f.description) phrase ||
     containsL (tokenize f.transcript_text) phrase)

/-- Token stream of the fts5 `snippet` function over one column: each
occurrence of the phrase is wrapped in the context markers `'>>> '` and
`' <<<'`; tokens outside matches pass through.  The `Nat` argument is
fuel — the list's length at the top call — making the recursion
structural. -/
def snippetToksF (phrase : List (List Char)) : Nat → List (List Char) → List String
  | _, [] => []
  | 0, _ :: _ => []
  | fuel + 1, t :: ts =>
    if startsWithL (t :: ts) phrase ∧ ¬ phrase = [] then
      (phrase.map (fun w => ">>> " ++ String.mk w ++ " <<<"))
        ++ snippetToksF phrase fuel (ts.drop (phrase.length - 1))
    else String.mk t :: snippetToksF phrase fuel ts

/-- The highlighted token stream of one snippet column. -/
def snippetToks (phrase : List (List Char)) (toks : List (List Char)) : List String :=
  snippetToksF phrase toks.length toks

/-- The SQL `snippet(transcripts_fts, col, '>>> ', ' <<<', '...', 32)`
applied to the text of one column, modelled at token granularity.  The
32-token window selection is simplified to the leading window (faithful
for columns of at most 32 tokens — every column evaluated in a theorem
below is such); the markers appear exactly at phrase occurrences inside
the window. -/
def ftsSnippet (colText : String) (phrase : List (List Char)) : String :=
  let toks := tokenize colText
  String.intercalate " " (snippetToks phrase (toks.take 32)) ++
    (if toks.length > 32 then "..." else "")

/-- `snippetToksF` ignores the exact fuel as long as it covers the list's
length. -/
theorem snippetToksF_irrel (phrase : List (List Char)) :
    ∀ (f1 f2 : Nat) (l : List (List Char)), l.length ≤ f1 → l.length ≤ f2 →
      snippetToksF phrase f1 l = snippetToksF phrase f2 l := by
  intro f1
  induction f1 with
  | zero =>
    intro f2 l h1 _
    have : l = [] := List.length_eq_zero.mp (Nat.le_zero.mp h1)
    subst this
    cases f2 <;> rfl
  | succ f1 ih =>
    intro f2 l h1 h2
    cases l with
    | nil => cases f2 <;> rfl
    | cons t ts =>
      cases f2 with
      | zero => simp at h2
      | succ f2 =>
        simp only [snippetToksF]
        simp only [List.length_cons] at h1 h2
        by_cases h : startsWithL (t :: ts) phrase ∧ ¬ phrase = []
        · rw [if_pos h, if_pos h]
          have hlen : (ts.drop (phrase.length - 1)).length ≤ ts.length := by
            simp [List.length_drop]
          rw [ih f2 (ts.drop (phrase.length - 1)) (by omega) (by omega)]
        · rw [if_neg h, if_neg h]
          rw [ih f2 ts (by omega) (by omega)]

/-- A `SearchResult` of `src/database.rs`. -/
structure SearchResult where
  id : Nat
  video_id : String
  title : String
  channel : String
  platform : String
  duration : Option Int
  path : String
  snippet : Option String
deriving DecidableEq

/-- The row built by the SELECT of `search_transcripts` for a matching
shadow row `f` joined with the transcripts row `t`: the snippet is
`snippet(transcripts_fts, 2, '>>> ', ' <<<', '...', 32)` — column index 2
is the `description` column. -/
def mkSearchResult (t : DBRow) (f : FtsRow) (phrase : List (List Char)) : SearchResult :=
  { id := t.id, video_id := t.video_id, title := t.title, channel := t.channel,
    platform := t.platform, duration := t.duration, path := t.path,
    snippet := some (ftsSnippet f.description phrase) }

/-- `search_transcripts` of `src/database.rs`: the query is quoted into a
single fts5 phrase, shadow rows matching the phrase are joined on
`transcripts_fts.rowid = t.id`, and `LIMIT ?` is applied (a negative SQL
LIMIT means no limit).  The bm25 `ORDER BY rank` is abstracted to scan
order; no theorem below depends on the relative order of two results.
`searchJoined` is the `joined` row set before the limit. -/
def searchJoined (db : DB) (query : String) : List SearchResult :=
  db.fts.filterMap (fun f =>
    if ftsMatch (tokenize query) f then
      match db.transcripts.find? (fun t => t.id = f.rowid) with
      | some t => some (mkSearchResult t f (tokenize query))
      | none => none
    else none)

def search_transcripts (db : DB) (query : String) (limit : Int) : List SearchResult :=
  if limit < 0 then searchJoined db query
  else (searchJoined db query).take limit.toNat

/-- `delete_transcript` of `src/database.rs`: `DELETE FROM transcripts
WHERE video_id = ?`, returning whether any row was deleted.  No statement
touches `transcripts_fts`. -/
def delete_transcript (db : DB) (vid : String) : Bool × DB :=
  (decide ((db.transcripts.filter (fun r => r.video_id = vid)).length > 0),
   { db with transcripts := db.transcripts.filter (fun r => ¬ r.video_id = vid) })

/-! ## The storage tree (`src/storage.rs` listing, `src/commands/reindex.rs`)

A directory of the transcript store is modelled as its name, the optional
content of `transcript.json` (`none` = file absent; `some none` = present
but unreadable or un-parsable; `some (some d)` = parses to `d`), the
optional content of `metadata.json` likewise, and the subdirectories. -/

/-- The fields the program reads out of the `metadata.json` map with
`as_str` / `as_i64`; a missing key or a key of the wrong JSON type is
`none`. -/
structure MetaJson where
  id : Option String
  url : Option String
  title : Option String
  channel : Option String
  duration : Option Int
  upload_date : Option String
  uploader_id : Option String

/-- The empty metadata map used when `metadata.json` does not exist. -/
def emptyMetaJson : MetaJson :=
  { id := none, url := none, title := none, channel := none,
    duration := none, upload_date := none, uploader_id := none }

/-- A directory of the storage tree. -/
inductive FsDir : Type where
  | node : String → Option (Option TranscriptData) → Option (Option MetaJson) →
      List FsDir → FsDir

/-- The directory's name (its last path component). -/
def FsDir.name : FsDir → String
  | .node n _ _ _ => n

/-- The directory's `transcript.json`. -/
def FsDir.tfile : FsDir → Option (Option TranscriptData)
  | .node _ t _ _ => t

/-- The directory's `metadata.json`. -/
def FsDir.mfile : FsDir → Option (Option MetaJson)
  | .node _ _ m _ => m

/-- The subdirectories. -/
def FsDir.children : FsDir → List FsDir
  | .node _ _ _ c => c

/-- Rust `str::split_whitespace`: maximal non-white-space runs.  The
`Nat` argument is fuel — the list's length at the top call — making the
recursion structural. -/
def wsWordsF : Nat → List Char → List (List Char)
  | _, [] => []
  | 0, _ :: _ => []
  | fuel + 1, c :: cs =>
    if isWhitespaceChar c then wsWordsF fuel cs
    else (c :: cs.takeWhile (fun d => !isWhitespaceChar d))
      :: wsWordsF fuel (cs.dropWhile (fun d => !isWhitespaceChar d))

/-- Rust `str::split_whitespace`: maximal non-white-space runs. -/
def wsWords (l : List Char) : List (List Char) :=
  wsWordsF l.length l

/-- The record upserted by `reindex_single` for the unit directory with
name `name`, parsed transcript `tdata`, metadata map `m` and path
components `parts` (the unit's path relative to the transcript root,
its own name included): platform and channel from the path position,
word count by white-space tokenization, speaker count as the number of
distinct speaker tokens (`HashSet` cardinality, modelled by
`eraseDups`). -/
def reindexMeta (parts : List String) (name : String) (tdata : TranscriptData)
    (m : MetaJson) : TranscriptMetadata :=
  let text := tdata.text
  let speaker_count := ((tdata.utterances.map (fun u => u.speaker)).eraseDups).length
  let word_count := (wsWords text.toList).length
  let platform := (parts.head?).getD "unknown"
  let channel := ((parts.drop 1).head?).getD "Unknown"
  { video_id := (m.id).getD name,
    url := (m.url).getD "",
    title := (m.title).getD name,
    channel := (m.channel).getD channel,
    channel_handle := none, channel_id := none,
    platform := platform,
    duration := m.duration, upload_date := m.upload_date,
    description := none, thumbnail := none,
    view_count := none, like_count := none,
    path := String.intercalate "/" parts,
    speaker_count := Int.ofNat speaker_count,
    word_count := Int.ofNat word_count,
    confidence := none,
    transcript_text := text }

/-- `reindex_single` of `src/commands/reindex.rs`: fails when
`transcript.json` cannot be read or parsed, or when an existing
`metadata.json` cannot be read or parsed; otherwise builds the record to
upsert (an absent `metadata.json` degrades to the empty map). -/
def reindex_single (parts : List String) (name : String)
    (tfile : Option (Option TranscriptData)) (mfile : Option (Option MetaJson)) :
    Except String TranscriptMetadata :=
  match tfile with
  | none => Except.error "transcript.json missing"
  | some none => Except.error "cannot read transcript.json"
  | some (some tdata) =>
    match mfile with
    | some none => Except.error "cannot read metadata.json"
    | some (some m) => Except.ok (reindexMeta parts name tdata m)
    | none => Except.ok (reindexMeta parts name tdata emptyMetaJson)

mutual

/-- `reindex_recursive` of `src/commands/reindex.rs`.  The state is the
indexed count, the number of reported-and-skipped failures (the
`eprintln!` branch) and the database.  A directory holding
`transcript.json` is one unit of work and is not descended into; a failed
unit increments the skip count and the walk goes on; all other
directories are descended into.  `parts` is the directory's path relative
to the transcript root, its own name included. -/
def reindexDir : FsDir → List String → (Nat × Nat × DB) → Nat × Nat × DB
  | .node name t mf cs, parts, st =>
    match t with
    | some tf =>
      (match reindex_single parts name (some tf) mf with
       | .error _ => (st.1, st.2.1 + 1, st.2.2)
       | .ok meta => (st.1 + 1, st.2.1, (add_transcript st.2.2 meta).2))
    | none => reindexKids cs parts st

/-- The loop over the subdirectory entries of `reindex_recursive`. -/
def reindexKids : List FsDir → List String → (Nat × Nat × DB) → Nat × Nat × DB
  | [], _, st => st
  | c :: rest, parts, st => reindexKids rest parts (reindexDir c (parts ++ [c.name]) st)

end

/-- A unit directory that `reindex_single` indexes successfully: its
`transcript.json` parses and its `metadata.json`, when present, parses
too. -/
def unitOk (d : FsDir) : Bool :=
  (match d.tfile with | some (some _) => true | _ => false) &&
  (match d.mfile with | some none => false | _ => true)

mutual

/-- Units the walk reaches and indexes: the outermost directories holding
a `transcript.json`, counted when `reindex_single` succeeds on them. -/
def nValidReached : FsDir → Nat
  | .node n t mf cs =>
    match t with
    | some tf => if unitOk (.node n (some tf) mf cs) then 1 else 0
    | none => nValidReachedKids cs

/-- Sum of `nValidReached` over a list of directories. -/
def nValidReachedKids : List FsDir → Nat
  | [] => 0
  | c :: rest => nValidReached c + nValidReachedKids rest

end

mutual

/-- Units the walk reaches whose `reindex_single` fails: reported and
skipped. -/
def nInvalidReached : FsDir → Nat
  | .node n t mf cs =>
    match t with
    | some tf => if unitOk (.node n (some tf) mf cs) then 0 else 1
    | none => nInvalidReachedKids cs

/-- Sum of `nInvalidReached` over a list of directories. -/
def nInvalidReachedKids : List FsDir → Nat
  | [] => 0
  | c :: rest => nInvalidReached c + nInvalidReachedKids rest

end

mutual

/-- All directories of the tree directly holding a `transcript.json` on
which `reindex_single` would succeed — the claim's count `N` of valid
transcript directories, nesting included. -/
def nValidAll : FsDir → Nat
  | .node n t mf cs =>
    (if (FsDir.node n t mf cs).tfile.isSome ∧ unitOk (.node n t mf cs) then 1 else 0)
      + nValidAllKids cs

/-- Sum of `nValidAll` over a list of directories. -/
def nValidAllKids : List FsDir → Nat
  | [] => 0
  | c :: rest => nValidAll c + nValidAllKids rest

end

mutual

/-- All directories of the tree directly holding a `transcript.json` on
which `reindex_single` would fail — the claim's count `M` of invalid
units. -/
def nInvalidAll : FsDir → Nat
  | .node n t mf cs =>
    (if (FsDir.node n t mf cs).tfile.isSome ∧ ¬ unitOk (.node n t mf cs) then 1 else 0)
      + nInvalidAllKids cs

/-- Sum of `nInvalidAll` over a list of directories. -/
def nInvalidAllKids : List FsDir → Nat
  | [] => 0
  | c :: rest => nInvalidAll c + nInvalidAllKids rest

end

/-! ## Filesystem listing (`src/storage.rs`, `list_transcripts`) -/

/-- The `TranscriptInfo` struct of `src/storage.rs`. -/
structure TranscriptInfo where
  path : String
  title : String
  channel : String
  channel_handle : Option String
  platform : String
  duration : Option Int
  upload_date : Option String
  url : Option String
deriving DecidableEq

/-- The info record built by `find_transcripts_recursive` for a leaf
directory `d` whose ancestor names (nearest first) are `anc`: the title
is the directory name, channel and platform come from the parent and
grandparent names, and an existing, readable, parsable `metadata.json`
enriches the defaults (`uploader_id` becomes the channel handle); a
missing or corrupt `metadata.json` leaves the defaults in place. -/
def infoOf (anc : List String) (d : FsDir) : TranscriptInfo :=
  let base : TranscriptInfo :=
    { path := String.intercalate "/" (anc.reverse ++ [d.name]),
      title := d.name,
      channel := (anc.head?).getD "Unknown",
      channel_handle := none,
      platform := ((anc.drop 1).head?).getD "unknown",
      duration := none, upload_date := none, url := none }
  match d.mfile with
  | some (some m) =>
    { base with
      duration := m.duration, upload_date := m.upload_date, url := m.url,
      channel_handle := m.uploader_id,
      channel := (m.channel).getD base.channel }
  | _ => base

mutual

/-- `find_transcripts_recursive` of `src/storage.rs`: a directory holding
`transcript.json` is a leaf and contributes one info record (recursion
stops there); otherwise the subdirectories are walked.  `anc` is the list
of ancestor directory names, nearest first. -/
def findTR : FsDir → List String → List TranscriptInfo
  | .node name t mf cs, anc =>
    match t with
    | some _ => [infoOf anc (.node name t mf cs)]
    | none => findTRKids cs (name :: anc)

/-- The loop over subdirectory entries of `find_transcripts_recursive`. -/
def findTRKids : List FsDir → List String → List TranscriptInfo
  | [], _ => []
  | c :: rest, anc => findTR c anc ++ findTRKids rest anc

end

/-- Case-insensitive substring test:
`a.to_lowercase().contains(&b.to_lowercase())` (ASCII case fold, as in
`domainOf`). -/
def containsCI (a b : String) : Bool :=
  containsL (a.toList.map Char.toLower) (b.toList.map Char.toLower)

/-- The `results` of `list_transcripts` after the walk (narrowed to the
named platform child when a platform filter is given; no results when
that child does not exist). -/
def listWalked (baseAnc : List String) (base : FsDir) (platform : Option String) :
    List TranscriptInfo :=
  match platform with
  | some p =>
    match base.children.find? (fun c => c.name = p) with
    | some c => findTR c (base.name :: baseAnc)
    | none => []
  | none => findTR base baseAnc

/-- The `results` of `list_transcripts` after the case-insensitive
channel substring filter. -/
def listAfterChannel (baseAnc : List String) (base : FsDir)
    (platform channel : Option String) : List TranscriptInfo :=
  match channel with
  | some cf => (listWalked baseAnc base platform).filter (fun t => containsCI t.channel cf)
  | none => listWalked baseAnc base platform

/-- `list_transcripts` of `src/storage.rs` over the transcript root
`base` (whose own ancestor names are `baseAnc`): a platform filter
narrows the walk to the child directory of that name (no results when it
does not exist), then the channel and handle filters keep records whose
channel, respectively channel handle, contains the filter
case-insensitively — a record without a handle never passes the handle
filter. -/
def list_transcripts (baseAnc : List String) (base : FsDir)
    (platform channel handle : Option String) : List TranscriptInfo :=
  match handle with
  | some hf =>
    (listAfterChannel baseAnc base platform channel).filter (fun t =>
      match t.channel_handle with
      | some h => containsCI h hf
      | none => false)
  | none => listAfterChannel baseAnc base platform channel

/-! ## Theorems: the sanitiser (claims C4 and C5) -/

/-- A character that survives sanitisation: neither illegal nor white
space. -/
def GoodChar (c : Char) : Prop :=
  isIllegalChar c = false ∧ isWhitespaceChar c = false

/-- No two adjacent underscores. -/
def NoUndPair (l : List Char) : Prop :=
  List.Chain' (fun a b => ¬ (a = '_' ∧ b = '_')) l

instance (c : Char) : Decidable (GoodChar c) :=
  inferInstanceAs (Decidable (isIllegalChar c = false ∧ isWhitespaceChar c = false))

instance (l : List Char) : Decidable (NoUndPair l) :=
  inferInstanceAs (Decidable (List.Chain' (fun a b => ¬ (a = '_' ∧ b = '_')) l))

/-- Structural invariant of the trimmed stem: good characters only, no
doubled underscore, and no trimmable character at either end. -/
def Stemmed (l : List Char) : Prop :=
  (∀ c ∈ l, GoodChar c) ∧ NoUndPair l ∧
  (∀ c, l.head? = some c → isTrimChar c = false) ∧
  (∀ c, l.getLast? = some c → isTrimChar c = false)

theorem map_illegal_free (name : List Char) :
    ∀ c ∈ name.map (fun c => if isIllegalChar c then '_' else c),
      isIllegalChar c = false := by
  intro c hc
  rcases List.mem_map.mp hc with ⟨a, _, rfl⟩
  by_cases h : isIllegalChar a = true
  · simp only [if_pos h]; decide
  · simp only [Bool.not_eq_true] at h
    simp [h]

theorem collapseRuns_stem (l : List Char) (hl : ∀ c ∈ l, isIllegalChar c = false) :
    (∀ c ∈ collapseRuns l, GoodChar c) ∧ NoUndPair (collapseRuns l) := by
  induction l with
  | nil =>
    refine ⟨?_, ?_⟩
    · intro c hc
      rw [show collapseRuns [] = [] from rfl] at hc
      exact absurd hc (List.not_mem_nil c)
    · rw [show collapseRuns [] = [] from rfl]
      exact List.chain'_nil
  | cons c cs ih =>
    have hc : isIllegalChar c = false := hl c (List.mem_cons_self c cs)
    have hcs : ∀ x ∈ cs, isIllegalChar x = false :=
      fun x hx => hl x (List.mem_cons_of_mem _ hx)
    have ihcs := ih hcs
    by_cases hw : isWsOrUnd c = true
    · cases cs with
      | nil =>
        rw [show collapseRuns [c] = ['_'] from by rw [collapseRuns.eq_def]; simp [hw]]
        exact ⟨by intro x hx; simp at hx; subst hx; exact ⟨by decide, by decide⟩,
               List.chain'_singleton _⟩
      | cons d ds =>
        by_cases hd : isWsOrUnd d = true
        · rw [show collapseRuns (c :: d :: ds) = collapseRuns (d :: ds) from by
            rw [collapseRuns.eq_def]; simp [hw, hd]]
          exact ihcs
        · have hdf : isWsOrUnd d = false := by
            cases hval : isWsOrUnd d
            · rfl
            · exact absurd hval hd
          have hdne : d ≠ '_' := by
            intro hcontra
            exact hd (by simp [isWsOrUnd, hcontra])
          have hunf : collapseRuns (d :: ds) = d :: collapseRuns ds := by
            rw [collapseRuns.eq_def]
            simp [hdf]
          rw [show collapseRuns (c :: d :: ds) = '_' :: collapseRuns (d :: ds) from by
            rw [collapseRuns.eq_def]; simp [hw, hdf]]
          constructor
          · intro x hx
            rcases List.mem_cons.mp hx with rfl | hx
            · exact ⟨by decide, by decide⟩
            · exact ihcs.1 x hx
          · refine List.chain'_cons'.mpr ⟨?_, ihcs.2⟩
            intro y hy
            rw [hunf] at hy
            simp only [List.head?_cons, Option.mem_def, Option.some.injEq] at hy
            subst hy
            exact fun hcontra => hdne hcontra.2
    · have hcu : c ≠ '_' := by
        intro hcontra
        exact hw (by simp [isWsOrUnd, hcontra])
      have hcw : isWhitespaceChar c = false := by
        cases hval : isWhitespaceChar c
        · rfl
        · exact absurd (by simp [isWsOrUnd, hval]) hw
      have hcf : isWsOrUnd c = false := by
        cases hval : isWsOrUnd c
        · rfl
        · exact absurd hval hw
      rw [show collapseRuns (c :: cs) = c :: collapseRuns cs from by
        rw [collapseRuns.eq_def]; simp [hcf]]
      constructor
      · intro x hx
        rcases List.mem_cons.mp hx with rfl | hx
        · exact ⟨hc, hcw⟩
        · exact ihcs.1 x hx
      · refine List.chain'_cons'.mpr ⟨?_, ihcs.2⟩
        intro y _
        exact fun hcontra => hcu hcontra.1

theorem head_dropWhile {α} (p : α → Bool) (l : List α) :
    ∀ c, (l.dropWhile p).head? = some c → p c = false := by
  induction l with
  | nil =>
    intro c hc
    exact Option.noConfusion hc
  | cons a l ih =>
    intro c hc
    by_cases hp : p a
    · rw [List.dropWhile_cons, if_pos hp] at hc
      exact ih c hc
    · rw [List.dropWhile_cons, if_neg hp] at hc
      simp only [List.head?_cons, Option.some.injEq] at hc
      subst hc
      exact Bool.not_eq_true _ ▸ hp

theorem pfx_head {α} {a b : List α} (h : a <+: b) {c : α} (hc : a.head? = some c) :
    b.head? = some c := by
  obtain ⟨t, rfl⟩ := h
  cases a with
  | nil => exact Option.noConfusion hc
  | cons x xs => simpa using hc

theorem pfx_mid {α} {a b : List α} (h : a <+: b) : a <:+: b := by
  obtain ⟨t, rfl⟩ := h
  exact ⟨[], t, rfl⟩

theorem infix_mem {α} {m l : List α} (h : m <:+: l) : ∀ c ∈ m, c ∈ l := by
  obtain ⟨s, t, rfl⟩ := h
  intro c hc
  simp [hc]

theorem revDrop_pfx {α} (p : α → Bool) (l : List α) :
    (l.reverse.dropWhile p).reverse <+: l := by
  have h1 : l.reverse.dropWhile p <:+ l.reverse := List.dropWhile_suffix p
  have h2 : ((l.reverse.dropWhile p).reverse).reverse <:+ l.reverse := by
    simpa using h1
  exact List.reverse_suffix.mp h2

theorem trimMatches_mid (l : List Char) : trimMatches l <:+: l := by
  obtain ⟨s, hs⟩ := List.dropWhile_suffix (l := l) isTrimChar
  obtain ⟨t, ht⟩ := revDrop_pfx isTrimChar (l.dropWhile isTrimChar)
  exact ⟨s, t, by unfold trimMatches; rw [List.append_assoc, ht, hs]⟩

theorem trimMatches_head (l : List Char) :
    ∀ c, (trimMatches l).head? = some c → isTrimChar c = false := by
  intro c hc
  have hp : trimMatches l <+: l.dropWhile isTrimChar := revDrop_pfx _ _
  exact head_dropWhile isTrimChar l c (pfx_head hp hc)

theorem trimMatches_last (l : List Char) :
    ∀ c, (trimMatches l).getLast? = some c → isTrimChar c = false := by
  intro c hc
  unfold trimMatches at hc
  rw [List.getLast?_reverse] at hc
  exact head_dropWhile isTrimChar _ c hc

theorem byteTake_pfx :
    ∀ (l : List Char) (n : Nat) (t : List Char), byteTake l n = some t → t <+: l := by
  intro l
  induction l with
  | nil =>
    intro n t h
    cases n with
    | zero =>
      simp only [byteTake, Option.some.injEq] at h
      subst h
      exact List.nil_prefix
    | succ n => simp [byteTake] at h
  | cons c cs ih =>
    intro n t h
    cases n with
    | zero =>
      simp only [byteTake, Option.some.injEq] at h
      subst h
      exact List.nil_prefix
    | succ n =>
      simp only [byteTake] at h
      by_cases hs : c.utf8Size ≤ n + 1
      · rw [if_pos hs] at h
        cases hb : byteTake cs (n + 1 - c.utf8Size) with
        | none => rw [hb] at h; simp at h
        | some t' =>
          rw [hb] at h
          simp only [Option.map_some', Option.some.injEq] at h
          subst h
          obtain ⟨s, hsx⟩ := ih _ _ hb
          exact ⟨s, by simp [hsx]⟩
      · rw [if_neg hs] at h
        simp at h

theorem byteTake_len :
    ∀ (l : List Char) (n : Nat) (t : List Char), byteTake l n = some t → byteLen t ≤ n := by
  intro l
  induction l with
  | nil =>
    intro n t h
    cases n with
    | zero =>
      simp only [byteTake, Option.some.injEq] at h
      subst h
      simp [byteLen]
    | succ n => simp [byteTake] at h
  | cons c cs ih =>
    intro n t h
    cases n with
    | zero =>
      simp only [byteTake, Option.some.injEq] at h
      subst h
      simp [byteLen]
    | succ n =>
      simp only [byteTake] at h
      by_cases hs : c.utf8Size ≤ n + 1
      · rw [if_pos hs] at h
        cases hb : byteTake cs (n + 1 - c.utf8Size) with
        | none => rw [hb] at h; simp at h
        | some t' =>
          rw [hb] at h
          simp only [Option.map_some', Option.some.injEq] at h
          subst h
          have := ih _ _ hb
          simp only [byteLen, List.map_cons, List.sum_cons] at this ⊢
          omega
      · rw [if_neg hs] at h
        simp at h

theorem byteLen_pfx_le {a b : List Char} (h : a <+: b) : byteLen a ≤ byteLen b := by
  obtain ⟨t, rfl⟩ := h
  simp only [byteLen, List.map_append, List.sum_append]
  omega

theorem map_illegal_id (l : List Char) (h : ∀ c ∈ l, isIllegalChar c = false) :
    (l.map fun c => if isIllegalChar c then '_' else c) = l := by
  induction l with
  | nil => rfl
  | cons c cs ih =>
    have hc := h c (List.mem_cons_self c cs)
    simp only [List.map_cons, hc, Bool.false_eq_true, if_false]
    rw [ih (fun x hx => h x (List.mem_cons_of_mem _ hx))]

theorem collapseRuns_id (l : List Char) (hw : ∀ c ∈ l, isWhitespaceChar c = false)
    (hc : NoUndPair l) : collapseRuns l = l := by
  induction l with
  | nil => rfl
  | cons c cs ih =>
    have hcw : isWhitespaceChar c = false := hw c (List.mem_cons_self c cs)
    have hwtail : ∀ x ∈ cs, isWhitespaceChar x = false :=
      fun x hx => hw x (List.mem_cons_of_mem _ hx)
    by_cases hcu : c = '_'
    · subst hcu
      cases cs with
      | nil => decide
      | cons d ds =>
        have hdne : d ≠ '_' := by
          intro hd
          exact (List.chain'_cons.mp hc).1 ⟨rfl, hd⟩
        have hdw : isWsOrUnd d = false := by
          simp [isWsOrUnd, hdne, hwtail d (List.mem_cons_self d ds)]
        have htl := ih hwtail (List.Chain'.tail hc)
        rw [show collapseRuns ('_' :: d :: ds) = '_' :: collapseRuns (d :: ds) from by
          rw [collapseRuns.eq_def]
          simp [show isWsOrUnd '_' = true from by decide, hdw]]
        rw [htl]
    · have hcwu : isWsOrUnd c = false := by
        simp [isWsOrUnd, hcu, hcw]
      rw [show collapseRuns (c :: cs) = c :: collapseRuns cs from by
        rw [collapseRuns.eq_def]; simp [hcwu]]
      rw [ih hwtail (List.Chain'.tail hc)]

theorem dropWhile_id {α} (p : α → Bool) (l : List α)
    (h : ∀ c, l.head? = some c → p c = false) : l.dropWhile p = l := by
  cases l with
  | nil => rfl
  | cons a l =>
    have := h a rfl
    simp [List.dropWhile_cons, this]

theorem trimMatches_id (l : List Char)
    (h1 : ∀ c, l.head? = some c → isTrimChar c = false)
    (h2 : ∀ c, l.getLast? = some c → isTrimChar c = false) : trimMatches l = l := by
  unfold trimMatches
  rw [dropWhile_id _ l h1]
  rw [dropWhile_id _ l.reverse (fun c hcx => h2 c (by rwa [List.head?_reverse] at hcx))]
  exact List.reverse_reverse l

theorem cleanedStem_stem (name : List Char) : Stemmed (cleanedStem name) := by
  have h2 := collapseRuns_stem _ (map_illegal_free name)
  exact ⟨fun c hcx => h2.1 c (infix_mem (trimMatches_mid _) c hcx),
         List.Chain'.infix h2.2 (trimMatches_mid _),
         trimMatches_head _, trimMatches_last _⟩

theorem cleanedStem_id (l : List Char) (h : Stemmed l) : cleanedStem l = l := by
  obtain ⟨hg, hch, hh, hl⟩ := h
  unfold cleanedStem
  rw [map_illegal_id l (fun c hcx => (hg c hcx).1)]
  rw [collapseRuns_id l (fun c hcx => (hg c hcx).2) hch]
  exact trimMatches_id l hh hl

/-- The top-level shape of `sanitize_filename`, with the lets expanded. -/
theorem sanitize_eq (name : List Char) (max : Nat) :
    sanitize_filename name max
      = (if byteLen (cleanedStem name) > max
         then (byteTake (cleanedStem name) max).map trimEndUnd
         else some (cleanedStem name)).map
          (fun result => if result.isEmpty then "untitled".toList else result) := rfl

theorem sanitize_fix (r : List Char) (max : Nat) (hs : Stemmed r)
    (hb : byteLen r ≤ max) (hne : r ≠ []) : sanitize_filename r max = some r := by
  rw [sanitize_eq, cleanedStem_id r hs, if_neg (by omega)]
  simp [List.isEmpty_iff, hne]

theorem sanitize_out (name : List Char) (max : Nat) (r : List Char)
    (h : sanitize_filename name max = some r) :
    r = "untitled".toList ∨ (Stemmed r ∧ byteLen r ≤ max ∧ r ≠ []) := by
  rw [sanitize_eq] at h
  have hs := cleanedStem_stem name
  by_cases hlen : byteLen (cleanedStem name) > max
  · rw [if_pos hlen] at h
    cases hbt : byteTake (cleanedStem name) max with
    | none => rw [hbt] at h; simp at h
    | some t =>
      rw [hbt] at h
      simp only [Option.map_some', Option.some.injEq] at h
      by_cases hte : (trimEndUnd t).isEmpty
      · left
        rw [← h, if_pos hte]
      · right
        rw [← h, if_neg hte]
        have htp : t <+: cleanedStem name := byteTake_pfx _ _ _ hbt
        have hep : trimEndUnd t <+: t := revDrop_pfx _ _
        have hcomb : trimEndUnd t <+: cleanedStem name := hep.trans htp
        have hmem : ∀ c ∈ trimEndUnd t, GoodChar c :=
          fun c hcx => hs.1 c (infix_mem (pfx_mid hcomb) c hcx)
        refine ⟨⟨hmem, ?_, ?_, ?_⟩, ?_, ?_⟩
        · exact List.Chain'.infix hs.2.1 (pfx_mid hcomb)
        · intro c hcx
          exact hs.2.2.1 c (pfx_head hcomb hcx)
        · intro c hcx
          have hcu : (c = '_' : Bool) = false := by
            unfold trimEndUnd at hcx
            rw [List.getLast?_reverse] at hcx
            exact head_dropWhile _ _ c hcx
          have hcg : GoodChar c :=
            hmem c (List.mem_of_getLast?_eq_some hcx)
          have hcs : c ≠ ' ' := by
            intro hsp
            subst hsp
            exact absurd hcg.2 (by decide)
          simp only [isTrimChar, Bool.or_eq_false_iff]
          exact ⟨hcu, by simp [hcs]⟩
        · exact le_trans (byteLen_pfx_le hep) (byteTake_len _ _ _ hbt)
        · simpa [List.isEmpty_iff] using hte
  · rw [if_neg hlen] at h
    simp only [Option.map_some', Option.some.injEq] at h
    by_cases he : (cleanedStem name).isEmpty
    · left
      rw [← h, if_pos he]
    · right
      rw [← h, if_neg he]
      exact ⟨hs, by omega, by simpa [List.isEmpty_iff] using he⟩

theorem noUndPair_of_no_und (l : List Char) (h : ∀ c ∈ l, c ≠ '_') : NoUndPair l := by
  induction l with
  | nil => exact List.chain'_nil
  | cons c cs ih =>
    refine List.chain'_cons'.mpr ⟨?_, ih (fun x hx => h x (List.mem_cons_of_mem _ hx))⟩
    intro y _
    exact fun hcontra => h c (List.mem_cons_self c cs) hcontra.1

theorem sanitize_untitled (max : Nat) (h : 8 ≤ max) :
    sanitize_filename ("untitled".toList) max = some ("untitled".toList) := by
  apply sanitize_fix
  · refine ⟨by decide, noUndPair_of_no_und _ (by decide), ?_, ?_⟩
    · intro c hc
      have : c = 'u' := by
        have h8 : ("untitled".toList).head? = some 'u' := by decide
        rw [h8] at hc
        exact (Option.some.inj hc).symm
      subst this
      decide
    · intro c hc
      have : c = 'd' := by
        have h8 : ("untitled".toList).getLast? = some 'd' := by decide
        rw [h8] at hc
        exact (Option.some.inj hc).symm
      subst this
      decide
  · have h8 : byteLen ("untitled".toList) = 8 := by decide
    omega
  · decide

theorem collapse_allUnd (l : List Char) (h : ∀ c ∈ l, c = '_') (hne : l ≠ []) :
    collapseRuns l = ['_'] := by
  induction l with
  | nil => exact absurd rfl hne
  | cons c cs ih =>
    have hcx : c = '_' := h c (List.mem_cons_self c cs)
    subst hcx
    cases cs with
    | nil => decide
    | cons d ds =>
      have hd : d = '_' := h d (List.mem_cons_of_mem _ (List.mem_cons_self d ds))
      subst hd
      rw [show collapseRuns ('_' :: '_' :: ds) = collapseRuns ('_' :: ds) from by
        rw [collapseRuns.eq_def]
        simp [show isWsOrUnd '_' = true from by decide]]
      exact ih (fun x hx => h x (List.mem_cons_of_mem _ hx)) (by simp)

theorem sanitize_allIllegal (name : List Char) (max : Nat)
    (h : ∀ c ∈ name, isIllegalChar c = true) :
    sanitize_filename name max = some ("untitled".toList) := by
  have hstem : cleanedStem name = [] := by
    by_cases hne : name = []
    · subst hne
      decide
    · have hmap : ∀ x ∈ name.map (fun c => if isIllegalChar c then '_' else c), x = '_' := by
        intro x hx
        rcases List.mem_map.mp hx with ⟨a, ha, rfl⟩
        rw [if_pos (h a ha)]
      have hmapne : name.map (fun c => if isIllegalChar c then '_' else c) ≠ [] := by
        simp [hne]
      unfold cleanedStem
      rw [collapse_allUnd _ hmap hmapne]
      decide
  rw [sanitize_eq, hstem]
  rw [if_neg (by simp [byteLen])]
  decide

/-- C4: for every input and maximum length, `sanitize_filename` never
returns an empty string, and an input of illegal characters only yields
`"untitled"`; idempotence however requires `8 ≤ max_length` — see
`C4_counterexample` for the failure below 8 — and holds in exactly that
amended form. -/
theorem C4_theorem (name : List Char) (max : Nat) :
    (8 ≤ max →
      ((sanitize_filename name max).bind fun r => sanitize_filename r max)
        = sanitize_filename name max)
    ∧ (∀ r, sanitize_filename name max = some r → r ≠ [])
    ∧ ((∀ c ∈ name, isIllegalChar c = true) →
        sanitize_filename name max = some ("untitled".toList)) := by
  refine ⟨?_, ?_, fun h => sanitize_allIllegal name max h⟩
  · intro h8
    cases hs : sanitize_filename name max with
    | none => rfl
    | some r =>
      show sanitize_filename r max = some r
      rcases sanitize_out name max r hs with h | ⟨hst, hb, hne⟩
      · subst h
        exact sanitize_untitled max h8
      · exact sanitize_fix r max hst hb hne
  · intro r hr
    rcases sanitize_out name max r hr with h | ⟨_, _, hne⟩
    · subst h
      decide
    · exact hne

/-- C4 counterexample: with `max_length = 3` the input `"???"` (illegal
characters only) sanitises to `"untitled"`, which is 8 characters long;
a second application truncates it to `"unt"`, so `sanitize` is not
idempotent as claimed for every maximum length. -/
theorem C4_counterexample :
    ((sanitize_filename ("???".toList) 3).bind fun r => sanitize_filename r 3)
      ≠ sanitize_filename ("???".toList) 3 := by decide

/-- C4 witness: the amended idempotence at `max_length = 10` on `"a b?c"`,
and the untitled fallback at `max_length = 7` on `"???"`. -/
theorem C4_witness :
    (((sanitize_filename ("a b?c".toList) 10).bind fun r => sanitize_filename r 10)
        = sanitize_filename ("a b?c".toList) 10)
    ∧ sanitize_filename ("???".toList) 7 = some ("untitled".toList) :=
  ⟨(C4_theorem ("a b?c".toList) 10).1 (by decide),
   (C4_theorem ("???".toList) 7).2.2 (by decide)⟩

/-- C5: the sanitiser does not complete on every input — on the
five-character input `"ééééé"` (ten UTF-8 bytes) with `max_length = 3`
the Rust byte slice `&sanitized[..3]` hits the middle of the second
two-byte character and the program aborts, modelled here by `none`. -/
theorem C5_theorem : sanitize_filename ("ééééé".toList) 3 = none := by decide

/-! ## Theorems: platform classification (claim C6) -/

theorem splitChar_ne_nil (sep : Char) (l : List Char) : splitChar sep l ≠ [] := by
  cases l with
  | nil => simp [splitChar]
  | cons c cs =>
    rw [splitChar.eq_def]
    by_cases h : c = sep
    · simp [h]
    · simp only [if_neg h]
      cases splitChar sep cs with
      | nil => simp
      | cons p ps => simp

theorem splitChar_head (sep : Char) (l : List Char) :
    (splitChar sep l).head? = some (l.takeWhile (fun c => ¬ c = sep)) := by
  induction l with
  | nil => rfl
  | cons c cs ih =>
    rw [splitChar.eq_def]
    by_cases h : c = sep
    · simp [h, List.takeWhile_cons]
    · simp only [if_neg h]
      cases heq : splitChar sep cs with
      | nil => exact absurd heq (splitChar_ne_nil sep cs)
      | cons p ps =>
        rw [heq] at ih
        simp only [List.head?_cons, Option.some.injEq] at ih
        rw [List.takeWhile_cons, if_pos (decide_eq_true h)]
        simp only [List.head?_cons, Option.some.injEq]
        rw [ih]

/-- C6 counterexample: the empty URL is as unparsable as a URL gets, yet
`get_platform_from_url` returns the empty string, not `"unknown"` — the
`unwrap_or("unknown")` default is dead code, because `split('.')` always
yields at least one (possibly empty) piece. -/
theorem C6_counterexample :
    get_platform_from_url ("".toList) = "".toList
      ∧ get_platform_from_url ("".toList) ≠ "unknown".toList := by
  refine ⟨by decide, by decide⟩

/-- C6 (amended): `get_platform_from_url` is a total function by
construction; the lowercased, `www.`-stripped domain of a known-platform
URL such as `https://www.youtube.com/watch?v=x` maps to its table tag
`youtube` (first match in `PLATFORM_MAP` order), and every domain with no
table match yields the first label before the first dot of the domain —
which is the empty string, not `"unknown"`, for an empty domain. -/
theorem C6_theorem :
    get_platform_from_url ("https://www.youtube.com/watch?v=x".toList)
      = "youtube".toList
    ∧ (∀ url, findPlat PLATFORM_MAP (domainOf url) = none →
        get_platform_from_url url = (domainOf url).takeWhile (fun c => ¬ c = '.')) := by
  constructor
  · decide
  · intro url h
    have hdef : get_platform_from_url url
        = (match findPlat PLATFORM_MAP (domainOf url) with
           | some p => p
           | none => ((splitChar '.' (domainOf url)).head?).getD ("unknown".toList)) := rfl
    rw [hdef, h, splitChar_head]
    rfl

/-- C6 witness: the fallback branch on the concrete unmatched URL
`https://example.org/v` yields the first label `example`. -/
theorem C6_witness :
    get_platform_from_url ("https://example.org/v".toList) = "example".toList := by
  have h := C6_theorem.2 ("https://example.org/v".toList) (by decide)
  rw [h]
  decide

/-! ## Theorems: the formatters (claims C7 and C8) -/

theorem plainLoop_batch (us : List Utterance) :
    ∀ (sp : String) (texts : List String),
      formatPlainLoop (some (sp, texts)) us
        = ("Speaker " ++ sp ++ ": " ++ String.intercalate " "
              (texts ++ (us.takeWhile (fun u => u.speaker = sp)).map (fun u => u.text)))
          :: formatPlainLoop none (us.dropWhile (fun u => u.speaker = sp)) := by
  induction us with
  | nil =>
    intro sp texts
    simp [formatPlainLoop]
  | cons u us ih =>
    intro sp texts
    by_cases h : u.speaker = sp
    · rw [show formatPlainLoop (some (sp, texts)) (u :: us)
            = formatPlainLoop (some (sp, texts ++ [u.text])) us from by
          simp [formatPlainLoop, h]]
      rw [ih sp (texts ++ [u.text])]
      rw [List.takeWhile_cons, List.dropWhile_cons]
      rw [if_pos (decide_eq_true h), if_pos (decide_eq_true h)]
      simp
    · rw [show formatPlainLoop (some (sp, texts)) (u :: us)
            = ("Speaker " ++ sp ++ ": " ++ String.intercalate " " texts)
              :: formatPlainLoop (some (u.speaker, [u.text])) us from by
          simp [formatPlainLoop, h]]
      rw [List.takeWhile_cons, List.dropWhile_cons]
      rw [if_neg (by simpa using h), if_neg (by simpa using h)]
      simp [formatPlainLoop]

theorem mdLoop_batch (us : List Utterance) :
    ∀ (sp : String) (texts : List String) (st : Int),
      formatMdLoop (some (sp, texts, st)) us
        = ("**Speaker " ++ sp ++ "** [" ++ format_timestamp st ++ "]: "
              ++ String.intercalate " "
                (texts ++ (us.takeWhile (fun u => u.speaker = sp)).map (fun u => u.text)))
          :: formatMdLoop none (us.dropWhile (fun u => u.speaker = sp)) := by
  induction us with
  | nil =>
    intro sp texts st
    simp [formatMdLoop]
  | cons u us ih =>
    intro sp texts st
    by_cases h : u.speaker = sp
    · rw [show formatMdLoop (some (sp, texts, st)) (u :: us)
            = formatMdLoop (some (sp, texts ++ [u.text], st)) us from by
          simp [formatMdLoop, h]]
      rw [ih sp (texts ++ [u.text]) st]
      rw [List.takeWhile_cons, List.dropWhile_cons]
      rw [if_pos (decide_eq_true h), if_pos (decide_eq_true h)]
      simp
    · rw [show formatMdLoop (some (sp, texts, st)) (u :: us)
            = ("**Speaker " ++ sp ++ "** [" ++ format_timestamp st ++ "]: "
                ++ String.intercalate " " texts)
              :: formatMdLoop (some (u.speaker, [u.text], u.start)) us from by
          simp [formatMdLoop, h]]
      rw [List.takeWhile_cons, List.dropWhile_cons]
      rw [if_neg (by simpa using h), if_neg (by simpa using h)]
      simp [formatMdLoop]

theorem chunkSpeaker_cons (u : Utterance) (us : List Utterance) :
    chunkSpeaker (u :: us)
      = (u :: us.takeWhile (fun v => v.speaker = u.speaker))
        :: chunkSpeaker (us.dropWhile (fun v => v.speaker = u.speaker)) := by
  unfold chunkSpeaker
  simp only [List.length_cons, chunkSpeakerF]
  have hlen := List.Sublist.length_le
    (List.dropWhile_sublist (l := us) (fun v => v.speaker = u.speaker))
  rw [chunkSpeakerF_irrel us.length
    (us.dropWhile (fun v => v.speaker = u.speaker)).length
    (us.dropWhile (fun v => v.speaker = u.speaker)) hlen le_rfl]

theorem plainLoop_chunks :
    ∀ (n : Nat) (us : List Utterance), us.length ≤ n →
      formatPlainLoop none us = (chunkSpeaker us).map plainParagraph := by
  intro n
  induction n with
  | zero =>
    intro us h
    have hus : us = [] := List.length_eq_zero.mp (Nat.le_zero.mp h)
    subst hus
    rfl
  | succ n ih =>
    intro us h
    cases us with
    | nil => rfl
    | cons u us =>
      rw [show formatPlainLoop none (u :: us)
            = formatPlainLoop (some (u.speaker, [u.text])) us from by
          simp [formatPlainLoop]]
      rw [plainLoop_batch]
      rw [chunkSpeaker_cons, List.map_cons]
      rw [show plainParagraph (u :: us.takeWhile (fun v => v.speaker = u.speaker))
            = "Speaker " ++ u.speaker ++ ": " ++ String.intercalate " "
                ([u.text] ++ (us.takeWhile (fun v => v.speaker = u.speaker)).map
                  (fun v => v.text)) from rfl]
      have hd := List.Sublist.length_le
        (List.dropWhile_sublist (l := us) (fun v => v.speaker = u.speaker))
      simp only [List.length_cons] at h
      rw [ih (us.dropWhile (fun v => v.speaker = u.speaker)) (by omega)]

theorem mdLoop_chunks :
    ∀ (n : Nat) (us : List Utterance), us.length ≤ n →
      formatMdLoop none us = (chunkSpeaker us).map mdParagraph := by
  intro n
  induction n with
  | zero =>
    intro us h
    have hus : us = [] := List.length_eq_zero.mp (Nat.le_zero.mp h)
    subst hus
    rfl
  | succ n ih =>
    intro us h
    cases us with
    | nil => rfl
    | cons u us =>
      rw [show formatMdLoop none (u :: us)
            = formatMdLoop (some (u.speaker, [u.text], u.start)) us from by
          simp [formatMdLoop]]
      rw [mdLoop_batch]
      rw [chunkSpeaker_cons, List.map_cons]
      rw [show mdParagraph (u :: us.takeWhile (fun v => v.speaker = u.speaker))
            = "**Speaker " ++ u.speaker ++ "** [" ++ format_timestamp u.start ++ "]: "
              ++ String.intercalate " "
                ([u.text] ++ (us.takeWhile (fun v => v.speaker = u.speaker)).map
                  (fun v => v.text)) from rfl]
      have hd := List.Sublist.length_le
        (List.dropWhile_sublist (l := us) (fun v => v.speaker = u.speaker))
      simp only [List.length_cons] at h
      rw [ih (us.dropWhile (fun v => v.speaker = u.speaker)) (by omega)]

/-- The utterance list of the spec's round-trip example. -/
def exUtts : List Utterance :=
  [⟨"A", "hi", 0, 1000, none⟩, ⟨"A", "there", 1000, 2000, none⟩,
   ⟨"B", "hello", 2000, 3000, none⟩]

/-- The spec's round-trip example transcript. -/
def exData : TranscriptData :=
  ⟨"t1", "hi there hello", exUtts, [], none, none⟩

/-- C7: both formatters batch consecutive same-speaker utterances into one
paragraph joined by spaces with a paragraph boundary exactly at each
speaker change — formally, both render exactly the runs of
`chunkSpeaker`, one paragraph per run — and on the spec's three-utterance
example both produce exactly two paragraphs, merging the two A utterances
and keeping B separate. -/
theorem C7_theorem :
    (∀ d : TranscriptData, d.utterances ≠ [] →
        format_transcript d
            = String.intercalate "\n\n" ((chunkSpeaker d.utterances).map plainParagraph)
          ∧ format_transcript_markdown d
            = "## Transcript\n\n"
              ++ String.intercalate "\n\n" ((chunkSpeaker d.utterances).map mdParagraph))
    ∧ (chunkSpeaker exUtts).length = 2
    ∧ format_transcript exData = "Speaker A: hi there\n\nSpeaker B: hello"
    ∧ format_transcript_markdown exData
        = "## Transcript\n\n**Speaker A** [00:00]: hi there\n\n**Speaker B** [00:02]: hello" := by
  refine ⟨?_, by decide, by decide, by decide⟩
  intro d hne
  obtain ⟨u, us, hc⟩ := List.exists_cons_of_ne_nil hne
  constructor
  · simp only [format_transcript, hc, List.isEmpty_cons, Bool.false_eq_true, if_false]
    rw [plainLoop_chunks (u :: us).length (u :: us) le_rfl]
  · simp only [format_transcript_markdown, hc, List.isEmpty_cons, Bool.false_eq_true, if_false]
    rw [mdLoop_chunks (u :: us).length (u :: us) le_rfl]

/-- C7 witness: the batching characterisation applied to the concrete
example transcript. -/
theorem C7_witness :
    format_transcript exData
        = String.intercalate "\n\n" ((chunkSpeaker exData.utterances).map plainParagraph)
      ∧ format_transcript_markdown exData
        = "## Transcript\n\n"
          ++ String.intercalate "\n\n" ((chunkSpeaker exData.utterances).map mdParagraph) :=
  C7_theorem.1 exData (List.cons_ne_nil _ _)

/-- C8: with no utterances, the plain presentation is exactly the raw flat
transcript text and the markdown presentation is the raw flat text under
the constant `## Transcript` heading — no speaker structure in either. -/
theorem C8_theorem (d : TranscriptData) (h : d.utterances = []) :
    format_transcript d = d.text
      ∧ format_transcript_markdown d = "## Transcript\n\n" ++ d.text := by
  constructor
  · simp [format_transcript, h]
  · simp [format_transcript_markdown, h]

/-- An utterance-free transcript used as the C8 witness input. -/
def exRaw : TranscriptData :=
  ⟨"t2", "just raw text", [], [], none, none⟩

/-- C8 witness: the fallback on a concrete utterance-free transcript. -/
theorem C8_witness :
    format_transcript exRaw = exRaw.text
      ∧ format_transcript_markdown exRaw = "## Transcript\n\n" ++ exRaw.text :=
  C8_theorem exRaw rfl

/-! ## Theorems: the search index (claims C1, C2 and C9) -/

theorem filter_neg_pos {α} (p : α → Prop) [DecidablePred p] (l : List α) :
    (l.filter (fun a => ¬ p a)).filter (fun a => p a) = [] := by
  rw [List.filter_filter]
  apply List.filter_eq_nil_iff.mpr
  intro a _
  simp [decide_not]

theorem mem_searchJoined {db : DB} {q : String} {r : SearchResult}
    (h : r ∈ searchJoined db q) :
    ∃ f ∈ db.fts, ∃ t ∈ db.transcripts,
      t.id = f.rowid ∧ r = mkSearchResult t f (tokenize q) := by
  unfold searchJoined at h
  rcases List.mem_filterMap.mp h with ⟨f, hf, heq⟩
  by_cases hm : ftsMatch (tokenize q) f = true
  · rw [if_pos hm] at heq
    cases hfind : db.transcripts.find? (fun t => t.id = f.rowid) with
    | none => rw [hfind] at heq; exact absurd heq (by simp)
    | some t =>
      rw [hfind] at heq
      have ht := List.mem_of_find?_eq_some hfind
      have hid : t.id = f.rowid := by
        have := List.find?_some hfind
        simpa using this
      exact ⟨f, hf, t, ht, hid, (Option.some.inj heq).symm⟩
  · rw [if_neg hm] at heq
    exact absurd heq (by simp)

theorem mem_search {db : DB} {q : String} {lim : Int} {r : SearchResult}
    (h : r ∈ search_transcripts db q lim) :
    ∃ f ∈ db.fts, ∃ t ∈ db.transcripts,
      t.id = f.rowid ∧ r = mkSearchResult t f (tokenize q) := by
  unfold search_transcripts at h
  by_cases hl : lim < 0
  · rw [if_pos hl] at h
    exact mem_searchJoined h
  · rw [if_neg hl] at h
    exact mem_searchJoined (List.mem_of_mem_take h)

/-- C9: deleting a video ID removes only the primary `transcripts` row —
the call returns `true` exactly when such a row existed — and leaves the
`transcripts_fts` shadow table byte-for-byte unchanged; the deleted
record disappears from search results solely because the join on
`transcripts_fts.rowid = t.id` no longer finds a primary row. -/
theorem C9_theorem (db : DB) (vid : String) :
    (delete_transcript db vid).2.fts = db.fts
    ∧ ((delete_transcript db vid).1 = true ↔ ∃ r ∈ db.transcripts, r.video_id = vid)
    ∧ (∀ (q : String) (lim : Int) (r : SearchResult),
        r ∈ search_transcripts (delete_transcript db vid).2 q lim → r.video_id ≠ vid) := by
  refine ⟨rfl, ⟨?_, ?_⟩, ?_⟩
  · intro h
    have h' : decide ((db.transcripts.filter (fun r => r.video_id = vid)).length > 0)
        = true := h
    have hpos := of_decide_eq_true h'
    obtain ⟨a, ha⟩ := List.exists_mem_of_ne_nil _ (List.length_pos.mp hpos)
    have hma := List.mem_filter.mp ha
    exact ⟨a, hma.1, by simpa using hma.2⟩
  · intro hex
    obtain ⟨a, ha, hv2⟩ := hex
    show decide ((db.transcripts.filter (fun r => r.video_id = vid)).length > 0) = true
    apply decide_eq_true
    apply List.length_pos.mpr
    intro hnil
    have hmem : a ∈ db.transcripts.filter (fun r => r.video_id = vid) :=
      List.mem_filter.mpr ⟨ha, decide_eq_true hv2⟩
    rw [hnil] at hmem
    exact absurd hmem (List.not_mem_nil a)
  · intro q lim r hr
    obtain ⟨f, hf, t, ht, hid, hreq⟩ := mem_search hr
    have ht2 : t ∈ db.transcripts.filter (fun x => ¬ x.video_id = vid) := ht
    have hnv : ¬ t.video_id = vid := by
      simpa using (List.mem_filter.mp ht2).2
    subst hreq
    exact hnv

/-- First upsert record of the concrete index scenarios: video `v`,
transcript text `alpha bravo`. -/
def cm1 : TranscriptMetadata :=
  { video_id := "v", url := "u1", title := "t1", channel := "c1",
    channel_handle := none, channel_id := none, platform := "youtube",
    duration := none, upload_date := none, description := none,
    thumbnail := none, view_count := none, like_count := none,
    path := "p1", speaker_count := 1, word_count := 2, confidence := none,
    transcript_text := "alpha bravo" }

/-- Second upsert record: the same video `v` with every field value
changed, transcript text `charlie delta`. -/
def cm2 : TranscriptMetadata :=
  { video_id := "v", url := "u2", title := "t2", channel := "c2",
    channel_handle := none, channel_id := none, platform := "vimeo",
    duration := none, upload_date := none, description := none,
    thumbnail := none, view_count := none, like_count := none,
    path := "p2", speaker_count := 2, word_count := 2, confidence := none,
    transcript_text := "charlie delta" }

/-- C9 witness: deleting video `v` from the one-row index built from
`cm1` returns `true` and leaves the fts shadow table unchanged. -/
theorem C9_witness :
    (delete_transcript (add_transcript emptyDB cm1).2 "v").2.fts
        = (add_transcript emptyDB cm1).2.fts
      ∧ (delete_transcript (add_transcript emptyDB cm1).2 "v").1 = true :=
  ⟨(C9_theorem ((add_transcript emptyDB cm1).2) "v").1,
   (C9_theorem ((add_transcript emptyDB cm1).2) "v").2.1.mpr
     ⟨rowOfMeta cm1 1,
      show rowOfMeta cm1 1 ∈ [rowOfMeta cm1 1] from List.mem_singleton_self _,
      rfl⟩⟩

/-- C1 counterexample: after upserting `cm1` (text `alpha bravo`) and then
`cm2` (same video ID `v`, text `charlie delta`), the fts shadow table
still holds the superseded `alpha bravo` row at the old rowid — it now
has two rows, so the derived shadow row was not replaced; it was orphaned
(only the join against `transcripts` hides it). -/
theorem C1_counterexample :
    ((add_transcript (add_transcript emptyDB cm1).2 cm2).2.fts.filter
        (fun f => f.transcript_text = "alpha bravo")) = [shadowOfMeta cm1 1]
    ∧ (add_transcript (add_transcript emptyDB cm1).2 cm2).2.fts.length = 2 := by
  refine ⟨by decide, by decide⟩

/-- C1 (amended): upserting the same video ID twice leaves exactly one
`transcripts` row, carrying the second record's field values, and exactly
one shadow row at the live rowid, carrying the second record's text; the
first upsert's rowid never reaches any search result (its orphaned shadow
row survives in the fts table but fails the join), and every search
result for this video ID is built from the second record's row and
shadow. -/
theorem C1_theorem (db : DB) (m1 m2 : TranscriptMetadata)
    (hwf : ∀ r ∈ db.transcripts, r.id ≤ db.seq)
    (hv : m1.video_id = m2.video_id) :
    ((add_transcript (add_transcript db m1).2 m2).2.transcripts.filter
        (fun r => r.video_id = m2.video_id)) = [rowOfMeta m2 (db.seq + 2)]
    ∧ ((add_transcript (add_transcript db m1).2 m2).2.fts.filter
        (fun f => f.rowid = db.seq + 2)) = [shadowOfMeta m2 (db.seq + 2)]
    ∧ (∀ (q : String) (lim : Int) (r : SearchResult),
        r ∈ search_transcripts (add_transcript (add_transcript db m1).2 m2).2 q lim →
          r.id ≠ (add_transcript db m1).1)
    ∧ (∀ (q : String) (lim : Int) (r : SearchResult),
        r ∈ search_transcripts (add_transcript (add_transcript db m1).2 m2).2 q lim →
          r.video_id = m2.video_id →
          r = mkSearchResult (rowOfMeta m2 (db.seq + 2)) (shadowOfMeta m2 (db.seq + 2))
                (tokenize q)) := by
  refine ⟨?_, ?_, ?_, ?_⟩
  · have h1 : (add_transcript (add_transcript db m1).2 m2).2.transcripts
        = ((add_transcript db m1).2.transcripts.filter
            (fun r => ¬ r.video_id = m2.video_id)) ++ [rowOfMeta m2 (db.seq + 2)] := rfl
    rw [h1, List.filter_append,
      filter_neg_pos (fun r : DBRow => r.video_id = m2.video_id)
        ((add_transcript db m1).2.transcripts)]
    simp [rowOfMeta]
  · have h2 : (add_transcript (add_transcript db m1).2 m2).2.fts
        = ((add_transcript db m1).2.fts.filter (fun f => ¬ f.rowid = db.seq + 2))
          ++ [shadowOfMeta m2 (db.seq + 2)] := rfl
    rw [h2, List.filter_append,
      filter_neg_pos (fun f : FtsRow => f.rowid = db.seq + 2)
        ((add_transcript db m1).2.fts)]
    simp [shadowOfMeta]
  · intro q lim r hr
    obtain ⟨f, hf, t, ht, hid, hreq⟩ := mem_search hr
    have hid1 : (add_transcript db m1).1 = db.seq + 1 := rfl
    have hrid : r.id = t.id := by
      rw [hreq]
      rfl
    rw [hid1, hrid]
    have ht2 : t ∈ ((add_transcript db m1).2.transcripts.filter
        (fun x => ¬ x.video_id = m2.video_id)) ++ [rowOfMeta m2 (db.seq + 2)] := ht
    rcases List.mem_append.mp ht2 with hmem | hmem
    · have hmf := List.mem_filter.mp hmem
      have hm1 : t ∈ (db.transcripts.filter (fun x => ¬ x.video_id = m1.video_id))
          ++ [rowOfMeta m1 (db.seq + 1)] := hmf.1
      rcases List.mem_append.mp hm1 with hmm | hmm
      · have hle := hwf t (List.mem_filter.mp hmm).1
        omega
      · exfalso
        have hteq : t = rowOfMeta m1 (db.seq + 1) := by simpa using hmm
        subst hteq
        have hcond := hmf.2
        simp [rowOfMeta, hv] at hcond
    · have hteq : t = rowOfMeta m2 (db.seq + 2) := by simpa using hmem
      subst hteq
      show db.seq + 2 ≠ db.seq + 1
      omega
  · intro q lim r hr hvid
    obtain ⟨f, hf, t, ht, hid, hreq⟩ := mem_search hr
    have htv : t.video_id = m2.video_id := by
      rw [hreq] at hvid
      exact hvid
    have ht2 : t ∈ ((add_transcript db m1).2.transcripts.filter
        (fun x => ¬ x.video_id = m2.video_id)) ++ [rowOfMeta m2 (db.seq + 2)] := ht
    rcases List.mem_append.mp ht2 with hmem | hmem
    · exfalso
      have hmf := List.mem_filter.mp hmem
      have hx : ¬ t.video_id = m2.video_id := by simpa using hmf.2
      exact hx htv
    · have htr : t = rowOfMeta m2 (db.seq + 2) := by simpa using hmem
      have hf2 : f ∈ ((add_transcript db m1).2.fts.filter
          (fun g => ¬ g.rowid = db.seq + 2)) ++ [shadowOfMeta m2 (db.seq + 2)] := hf
      rcases List.mem_append.mp hf2 with hfm | hfm
      · exfalso
        have hff := List.mem_filter.mp hfm
        have hfr2 : f.rowid = db.seq + 2 := by
          rw [htr] at hid
          simpa [rowOfMeta] using hid.symm
        have hy : ¬ f.rowid = db.seq + 2 := by simpa using hff.2
        exact hy hfr2
      · have hfr : f = shadowOfMeta m2 (db.seq + 2) := by simpa using hfm
        rw [hreq, htr, hfr]

/-- C1 witness: the amended statement's primary-row part instantiated on
the empty database with `cm1` then `cm2`. -/
theorem C1_witness :
    ((add_transcript (add_transcript emptyDB cm1).2 cm2).2.transcripts.filter
        (fun r => r.video_id = cm2.video_id)) = [rowOfMeta cm2 (emptyDB.seq + 2)] :=
  (C1_theorem emptyDB cm1 cm2
    (by intro r hr; exact absurd hr (List.not_mem_nil r)) rfl).1

/-- The single-record index of the C2 scenario: transcript text contains
`hello world`, description absent (so the shadow row's description column
is empty). -/
def cmHello : TranscriptMetadata :=
  { video_id := "v1", url := "https://youtu.be/v1", title := "Video Title",
    channel := "Chan", channel_handle := none, channel_id := none,
    platform := "youtube", duration := none, upload_date := none,
    description := none, thumbnail := none, view_count := none,
    like_count := none, path := "p1", speaker_count := 1, word_count := 4,
    confidence := none, transcript_text := "say hello world now" }

/-- C2: over an index holding exactly one record whose transcript text
contains `hello world`, `search("hello", 20)` does return exactly one
result — but its snippet is the empty string, without any highlighted
`hello`, because the SQL call `snippet(transcripts_fts, 2, …)` hardcodes
column index 2, the `description` column, instead of the matching
`transcript_text` column (index 3).  The second conjunct shows what the
snippet of the matching column would have contained. -/
theorem C2_theorem :
    search_transcripts (add_transcript emptyDB cmHello).2 "hello" 20
      = [{ id := 1, video_id := "v1", title := "Video Title", channel := "Chan",
           platform := "youtube", duration := none, path := "p1",
           snippet := some "" }]
    ∧ ftsSnippet "say hello world now" (tokenize "hello")
        = "say >>> hello <<< world now" := by
  refine ⟨by decide, by decide⟩

/-! ## Theorems: the reindexer (claim C3) -/

mutual

/-- Size of a directory tree, for the strong inductions below. -/
def dirSize : FsDir → Nat
  | .node _ _ _ cs => 1 + kidsSize cs

/-- Size of a list of directory trees. -/
def kidsSize : List FsDir → Nat
  | [] => 0
  | c :: rest => dirSize c + kidsSize rest

end

theorem dirSize_pos (d : FsDir) : 1 ≤ dirSize d := by
  cases d with
  | node name t mf cs =>
    show 1 ≤ 1 + kidsSize cs
    omega

theorem reindex_counts_aux (n : Nat) :
    (∀ (parts : List String) (d : FsDir) (st : Nat × Nat × DB), dirSize d ≤ n →
        (reindexDir d parts st).1 = st.1 + nValidReached d
          ∧ (reindexDir d parts st).2.1 = st.2.1 + nInvalidReached d)
      ∧ (∀ (parts : List String) (cs : List FsDir) (st : Nat × Nat × DB), kidsSize cs ≤ n →
        (reindexKids cs parts st).1 = st.1 + nValidReachedKids cs
          ∧ (reindexKids cs parts st).2.1 = st.2.1 + nInvalidReachedKids cs) := by
  induction n with
  | zero =>
    constructor
    · intro parts d st hle
      exact absurd (le_trans (dirSize_pos d) hle) (by omega)
    · intro parts cs st hle
      cases cs with
      | nil =>
        exact ⟨show st.1 = st.1 + 0 from by omega, show st.2.1 = st.2.1 + 0 from by omega⟩
      | cons c rest =>
        exfalso
        have h1 : dirSize c + kidsSize rest ≤ 0 := hle
        have h2 := dirSize_pos c
        omega
  | succ n ih =>
    have hdir : ∀ (parts : List String) (d : FsDir) (st : Nat × Nat × DB),
        dirSize d ≤ n + 1 →
          (reindexDir d parts st).1 = st.1 + nValidReached d
            ∧ (reindexDir d parts st).2.1 = st.2.1 + nInvalidReached d := by
      intro parts d st hle
      cases d with
      | node name t mf cs =>
        cases t with
        | none =>
          have hsz : kidsSize cs ≤ n := by
            have h1 : 1 + kidsSize cs ≤ n + 1 := hle
            omega
          exact ih.2 parts cs st hsz
        | some tf =>
          cases tf with
          | none =>
            exact ⟨show st.1 = st.1 + 0 from by omega,
                   show st.2.1 + 1 = st.2.1 + 1 from rfl⟩
          | some tdata =>
            cases mf with
            | none =>
              exact ⟨show st.1 + 1 = st.1 + 1 from rfl,
                     show st.2.1 = st.2.1 + 0 from by omega⟩
            | some mo =>
              cases mo with
              | none =>
                exact ⟨show st.1 = st.1 + 0 from by omega,
                       show st.2.1 + 1 = st.2.1 + 1 from rfl⟩
              | some m =>
                exact ⟨show st.1 + 1 = st.1 + 1 from rfl,
                       show st.2.1 = st.2.1 + 0 from by omega⟩
    refine ⟨hdir, ?_⟩
    intro parts cs st hle
    cases cs with
    | nil =>
      exact ⟨show st.1 = st.1 + 0 from by omega, show st.2.1 = st.2.1 + 0 from by omega⟩
    | cons c rest =>
      have hle2 : dirSize c + kidsSize rest ≤ n + 1 := hle
      have hpos := dirSize_pos c
      have hc := hdir (parts ++ [c.name]) c st (by omega)
      have hr := ih.2 parts rest (reindexDir c (parts ++ [c.name]) st) (by omega)
      refine ⟨?_, ?_⟩
      · show (reindexKids rest parts (reindexDir c (parts ++ [c.name]) st)).1
            = st.1 + (nValidReached c + nValidReachedKids rest)
        rw [hr.1, hc.1]
        omega
      · show (reindexKids rest parts (reindexDir c (parts ++ [c.name]) st)).2.1
            = st.2.1 + (nInvalidReached c + nInvalidReachedKids rest)
        rw [hr.2, hc.2]
        omega

theorem reached_le_aux (n : Nat) :
    (∀ d : FsDir, dirSize d ≤ n →
        nValidReached d ≤ nValidAll d ∧ nInvalidReached d ≤ nInvalidAll d)
      ∧ (∀ cs : List FsDir, kidsSize cs ≤ n →
        nValidReachedKids cs ≤ nValidAllKids cs
          ∧ nInvalidReachedKids cs ≤ nInvalidAllKids cs) := by
  induction n with
  | zero =>
    constructor
    · intro d hle
      exact absurd (le_trans (dirSize_pos d) hle) (by omega)
    · intro cs hle
      cases cs with
      | nil => exact ⟨le_rfl, le_rfl⟩
      | cons c rest =>
        exfalso
        have h1 : dirSize c + kidsSize rest ≤ 0 := hle
        have h2 := dirSize_pos c
        omega
  | succ n ih =>
    have hdir : ∀ d : FsDir, dirSize d ≤ n + 1 →
        nValidReached d ≤ nValidAll d ∧ nInvalidReached d ≤ nInvalidAll d := by
      intro d hle
      cases d with
      | node name t mf cs =>
        have hkids : nValidReachedKids cs ≤ nValidAllKids cs
            ∧ nInvalidReachedKids cs ≤ nInvalidAllKids cs := by
          cases t with
          | none =>
            exact ih.2 cs (by
              have h1 : 1 + kidsSize cs ≤ n + 1 := hle
              omega)
          | some tf =>
            -- the walk does not descend, so only the trivial bound is needed
            exact ih.2 cs (by
              have h1 : 1 + kidsSize cs ≤ n + 1 := hle
              omega)
        cases t with
        | none =>
          show nValidReachedKids cs
              ≤ (if (FsDir.node name none mf cs).tfile.isSome = true
                  ∧ unitOk (.node name none mf cs) = true then 1 else 0) + nValidAllKids cs
            ∧ nInvalidReachedKids cs
              ≤ (if (FsDir.node name none mf cs).tfile.isSome = true
                  ∧ ¬ unitOk (.node name none mf cs) = true then 1 else 0) + nInvalidAllKids cs
          constructor
          · exact le_trans hkids.1 (by omega)
          · exact le_trans hkids.2 (by omega)
        | some tf =>
          have hts : (FsDir.node name (some tf) mf cs).tfile.isSome = true := rfl
          show (if unitOk (.node name (some tf) mf cs) = true then 1 else 0)
              ≤ (if (FsDir.node name (some tf) mf cs).tfile.isSome = true
                  ∧ unitOk (.node name (some tf) mf cs) = true then 1 else 0)
                + nValidAllKids cs
            ∧ (if unitOk (.node name (some tf) mf cs) = true then 0 else 1)
              ≤ (if (FsDir.node name (some tf) mf cs).tfile.isSome = true
                  ∧ ¬ unitOk (.node name (some tf) mf cs) = true then 1 else 0)
                + nInvalidAllKids cs
          by_cases hok : unitOk (.node name (some tf) mf cs) = true
          · rw [if_pos hok, if_pos ⟨hts, hok⟩, if_pos hok,
              if_neg (fun hcontra => hcontra.2 hok)]
            omega
          · rw [if_neg hok, if_neg (fun hcontra => hok hcontra.2), if_neg hok,
              if_pos ⟨hts, hok⟩]
            omega
    refine ⟨hdir, ?_⟩
    intro cs hle
    cases cs with
    | nil => exact ⟨le_rfl, le_rfl⟩
    | cons c rest =>
      have hle2 : dirSize c + kidsSize rest ≤ n + 1 := hle
      have hpos := dirSize_pos c
      have hc := hdir c (by omega)
      have hr := ih.2 rest (by omega)
      have hv : nValidReachedKids (c :: rest) = nValidReached c + nValidReachedKids rest := rfl
      have hva : nValidAllKids (c :: rest) = nValidAll c + nValidAllKids rest := rfl
      have hi : nInvalidReachedKids (c :: rest)
          = nInvalidReached c + nInvalidReachedKids rest := rfl
      have hia : nInvalidAllKids (c :: rest) = nInvalidAll c + nInvalidAllKids rest := rfl
      rw [hv, hva, hi, hia]
      constructor
      · have := hc.1
        have := hr.1
        omega
      · have := hc.2
        have := hr.2
        omega

/-- A parse-correct transcript file used in the C3 storage trees. -/
def tdOk : TranscriptData :=
  ⟨"id1", "hello world", [], [], none, none⟩

/-- The nested C3 tree: the unit `A` directly contains a valid
`transcript.json`, and so does its subdirectory `A/B`. -/
def exTreeC3 : FsDir :=
  .node "r" none none
    [.node "A" (some (some tdOk)) none
      [.node "B" (some (some tdOk)) none []]]

/-- C3 counterexample: the nested tree holds `N = 2` valid transcript
directories (both directly contain a parsing `transcript.json`), yet the
walk stops descending at `A` and performs exactly one upsert — the claim
`upserts exactly N index rows` fails on trees with nested units. -/
theorem C3_counterexample :
    (reindexDir exTreeC3 [] (0, 0, emptyDB)).1 = 1
      ∧ nValidAll exTreeC3 = 2 := by
  refine ⟨by decide, by decide⟩

/-- C3 (amended): reindexing never aborts, upserts exactly one row per
valid unit *reached by the walk* (the outermost directories holding a
`transcript.json` — recursion does not descend into a unit, so nested
units are not separate work items), reports and skips exactly the failing
units it reaches, continuing across siblings, and the reached counts are
bounded by the tree-wide counts `N` of valid and `M` of invalid
transcript directories. -/
theorem C3_theorem (parts : List String) (root : FsDir) (st : Nat × Nat × DB) :
    (reindexDir root parts st).1 = st.1 + nValidReached root
    ∧ (reindexDir root parts st).2.1 = st.2.1 + nInvalidReached root
    ∧ nValidReached root ≤ nValidAll root
    ∧ nInvalidReached root ≤ nInvalidAll root :=
  ⟨((reindex_counts_aux (dirSize root)).1 parts root st le_rfl).1,
   ((reindex_counts_aux (dirSize root)).1 parts root st le_rfl).2,
   ((reached_le_aux (dirSize root)).1 root le_rfl).1,
   ((reached_le_aux (dirSize root)).1 root le_rfl).2⟩

/-! ## Theorems: filesystem listing (claim C10) -/

/-- The leaf provides no channel handle: `metadata.json` is missing,
unreadable, or parses without a string `uploader_id` field. -/
def MetaNoHandle (d : FsDir) : Prop :=
  ∀ m, d.mfile = some (some m) → m.uploader_id = none

theorem infoOf_no_handle (anc : List String) (d : FsDir) (h : MetaNoHandle d) :
    (infoOf anc d).channel_handle = none := by
  cases d with
  | node name t mf cs =>
    cases mf with
    | none => rfl
    | some mo =>
      cases mo with
      | none => rfl
      | some m => exact h m rfl

theorem findTR_leaf (anc : List String) (name : String) (tf : Option TranscriptData)
    (mf : Option (Option MetaJson)) (cs : List FsDir) :
    findTR (.node name (some tf) mf cs) anc
      = [infoOf anc (.node name (some tf) mf cs)] := rfl

/-- C10: with a handle filter, every record in the result carries a
channel handle, so any leaf whose `metadata.json` is missing or lacks an
`uploader_id` (its info record has `channel_handle = none`) is excluded;
without any filter the listing is exactly the walk, in which such a leaf
does appear with the defaulted fields. -/
theorem C10_theorem :
    (∀ (baseAnc : List String) (base : FsDir) (pf cf : Option String) (hf : String)
        (t : TranscriptInfo),
        t ∈ list_transcripts baseAnc base pf cf (some hf) → t.channel_handle.isSome = true)
    ∧ (∀ (anc : List String) (name : String) (tf : Option TranscriptData)
        (mf : Option (Option MetaJson)) (cs : List FsDir),
        MetaNoHandle (.node name (some tf) mf cs) →
          (infoOf anc (.node name (some tf) mf cs)).channel_handle = none
            ∧ infoOf anc (.node name (some tf) mf cs)
                ∈ findTR (.node name (some tf) mf cs) anc)
    ∧ (∀ (baseAnc : List String) (base : FsDir),
        list_transcripts baseAnc base none none none = findTR base baseAnc) := by
  refine ⟨?_, ?_, fun _ _ => rfl⟩
  · intro baseAnc base pf cf hf t ht
    have ht2 : t ∈ (listAfterChannel baseAnc base pf cf).filter (fun t =>
        match t.channel_handle with
        | some h => containsCI h hf
        | none => false) := ht
    have hp := (List.mem_filter.mp ht2).2
    cases hh : t.channel_handle with
    | none =>
      rw [hh] at hp
      exact absurd hp (by simp)
    | some h => rfl
  · intro anc name tf mf cs h
    refine ⟨infoOf_no_handle anc _ h, ?_⟩
    rw [findTR_leaf]
    exact List.mem_singleton_self _

/-- A metadata-free leaf directory used as the C10 witness input. -/
def exLeafC10 : FsDir :=
  .node "vid" (some (some tdOk)) none []

/-- C10 witness: the metadata-free leaf has no channel handle yet appears
in the unfiltered walk. -/
theorem C10_witness :
    (infoOf ["chan", "youtube"] exLeafC10).channel_handle = none
      ∧ infoOf ["chan", "youtube"] exLeafC10 ∈ findTR exLeafC10 ["chan", "youtube"] :=
  C10_theorem.2.1 ["chan", "youtube"] "vid" (some tdOk) none []
    (fun _ h => Option.noConfusion h)

end YtCli
